import Mathlib

/-!
Verification of the text patcher in `patch_gfx1201.py`.

The program reads one file, applies two guarded textual edits to its
content, and writes the content back when an edit changed it:

* edit 1 (lines 32-48): when neither `"gfx1201"` nor `'gfx1201'` occurs in
  the content, apply `re.sub` with pattern `(GFX_MAP\s*=\s*\{.*?)(\})` under
  `re.DOTALL`, replacement `\1    16: "gfx1201",\n\2`;
* edit 2 (lines 53-78): when `elif gfx == "gfx1201":` does not occur,
  replace every occurrence of the anchor
  `elif gfx == "gfx950":\n        return "MI350"` by the anchor followed by
  a new branch; when the anchor does not occur, replace every occurrence of
  `raise RuntimeError("Unsupported gfx")` by
  `return "MI300" # Fallback for gfx1201`.

Content is modelled as `List Char`.  Python `str.replace` is `replaceAll`
(left to right, non-overlapping, scanning resumes after the replacement).
The `re.sub` call is `gfxSub`: at each position, the pattern matches iff
the text starts with `GFX_MAP`, then a maximal run of whitespace followed
by `=`, then a maximal run of whitespace followed by `{`, then any text up
to the first `}` (the lazy `.*?` with DOTALL); substitution inserts
`    16: "gfx1201",\n` in front of that `}` and resumes after it.
-/

/-- The apostrophe character, written via its code point. -/
def apos : Char := Char.ofNat 39

/-- The opening curly brace character. -/
def obr : Char := '\x7b'

/-- The closing curly brace character. -/
def cbr : Char := '\x7d'

/-- ASCII whitespace as matched by the regex class in the pattern
(the patched file is ASCII, so the unicode cases of the class are moot). -/
def isPyWs (c : Char) : Bool :=
  c = ' ' || c = '\t' || c = '\n' || c = '\r' || c = '\x0b' || c = '\x0c'

/-- The literal `GFX_MAP` opening the regex pattern (line 36). -/
def gfxmapL : List Char := "GFX_MAP".toList

/-- The text inserted in front of the closing brace by the regex
replacement `\1    16: "gfx1201",\n\2` (line 37). -/
def insL : List Char := "    16: \"gfx1201\",\n".toList

/-- The double-quoted marker `"gfx1201"` tested on line 32. -/
def q1L : List Char := "\"gfx1201\"".toList

/-- The single-quoted marker `'gfx1201'` tested on line 32. -/
def q2L : List Char := apos :: ("gfx1201".toList ++ [apos])

/-- The branch header `elif gfx == "gfx1201":` tested on line 53. -/
def hdrL : List Char := "elif gfx == \"gfx1201\":".toList

/-- The anchor `target_str` of line 61: note the eight spaces of
indentation before `return`. -/
def anchorL : List Char := "elif gfx == \"gfx950\":\n        return \"MI350\"".toList

/-- The `injection` string of line 62: the anchor followed by the new
branch for gfx1201. -/
def injL : List Char :=
  ("elif gfx == \"gfx950\":\n        return \"MI350\"\n    elif gfx == \"gfx1201\":\n        return \"MI300\"  # Proxy for RDNA4 compatibility").toList

/-- The `err_str` of line 73. -/
def errL : List Char := "raise RuntimeError(\"Unsupported gfx\")".toList

/-- The `fallback_str` of line 74. -/
def fbL : List Char := "return \"MI300\" # Fallback for gfx1201".toList

/-- Drop an expected leading segment: `dropPre pre s = some r` iff
`s = pre ++ r`. -/
def dropPre : List Char → List Char → Option (List Char)
  | [], s => some s
  | _ :: _, [] => none
  | p :: ps, a :: s => if p = a then dropPre ps s else none

/-- Split off the maximal whitespace run at the front of a list. -/
def spanWs : List Char → List Char × List Char
  | [] => ([], [])
  | a :: s => if isPyWs a then ((a :: (spanWs s).1), (spanWs s).2) else ([], a :: s)

/-- Split a list at the first occurrence of a character: the pieces before
and after it. -/
def breakAt (ch : Char) : List Char → Option (List Char × List Char)
  | [] => none
  | a :: s =>
    if a = ch then some ([], s)
    else
      match breakAt ch s with
      | some (B, r) => some (a :: B, r)
      | none => none

/-- One attempt of the regex `(GFX_MAP\s*=\s*\{.*?)(\})` at the current
position (with DOTALL, `.*?\}` reaches exactly the first closing brace).
On success, returns group 1 (the whole match except the final `}`) and the
text after the match. -/
def matchGfx (s : List Char) : Option (List Char × List Char) :=
  match dropPre gfxmapL s with
  | none => none
  | some r1 =>
    match spanWs r1 with
    | (w1, r2) =>
      match r2 with
      | [] => none
      | c1 :: r3 =>
        if c1 = '=' then
          match spanWs r3 with
          | (w2, r4) =>
            match r4 with
            | [] => none
            | c2 :: r5 =>
              if c2 = obr then
                match breakAt cbr r5 with
                | some (B, r6) => some (gfxmapL ++ w1 ++ '=' :: (w2 ++ obr :: B), r6)
                | none => none
              else none
        else none

/-- The regex substitution, fuelled so that the recursion is structural;
`gfxSub` below always supplies enough fuel. -/
def gfxSubAux : Nat → List Char → List Char
  | 0, _ => []
  | n + 1, s =>
    match s with
    | [] => []
    | a :: s' =>
      match matchGfx (a :: s') with
      | some (A, t) => A ++ insL ++ cbr :: gfxSubAux n t
      | none => a :: gfxSubAux n s'

/-- The global substitution `re.sub(pattern, replacement, content)` of
line 39: scan left to right, at each position attempt the match; on
success emit group 1, the inserted line and the closing brace, and resume
after the match; otherwise keep one character and move on. -/
def gfxSub (s : List Char) : List Char := gfxSubAux s.length s

/-- Python `str.replace(pat, repl)` of lines 65 and 76: replace every
occurrence, scanning left to right, resuming after each replacement. -/
def replaceAll (pat repl : List Char) : List Char → List Char
  | [] => []
  | a :: s =>
    if pat ≠ [] ∧ pat <+: (a :: s) then
      repl ++ replaceAll pat repl (List.drop (pat.length - 1) s)
    else a :: replaceAll pat repl s
termination_by l => l.length
decreasing_by
  · simp [List.length_drop]; omega
  · simp

/-- Edit 1 (lines 32-48): the map-entry insertion, guarded by the absence
of a quoted `gfx1201`. -/
def edit1 (c : List Char) : List Char :=
  if q1L <:+: c ∨ q2L <:+: c then c else gfxSub c

/-- Edit 2 (lines 53-78): the branch insertion, guarded by the absence of
the branch header; anchored insertion first, then the blunt fallback. -/
def edit2 (c : List Char) : List Char :=
  if hdrL <:+: c then c
  else if anchorL <:+: c then replaceAll anchorL injL c
  else if errL <:+: c then replaceAll errL fbL c
  else c

/-- The full content transformation of one run of the patcher. -/
def patchContent (c : List Char) : List Char := edit2 (edit1 c)

/-- The `modified` flag at line 80: edit 1 sets it only when the
substitution changed the buffer (line 41); edit 2 sets it whenever the
anchored or the fallback replacement fired (lines 66 and 77). -/
def modifiedProp (c : List Char) : Prop :=
  ((¬ (q1L <:+: c ∨ q2L <:+: c)) ∧ gfxSub c ≠ c) ∨
    ((¬ hdrL <:+: edit1 c) ∧ (anchorL <:+: edit1 c ∨ errL <:+: edit1 c))

instance modifiedPropDec (c : List Char) : Decidable (modifiedProp c) := by
  unfold modifiedProp; infer_instance

/-- Result of one run of `patch_aiter_for_gfx1201`: the returned boolean,
whether a write was attempted, and the resulting file state. -/
structure PatchOutcome where
  ret : Bool
  wrote : Bool
  finalFile : Option (List Char)
  deriving DecidableEq

/-- The operation `patch_aiter_for_gfx1201` (lines 15-95) at the file
level.  `file` is the target file state (`none` when the path does not
exist, line 20); `readOk`/`writeOk` say whether the read on line 26 and
the write on line 82 raise; a raise is caught by the handler on line 90
and turned into a `false` return. -/
def patch_aiter_for_gfx1201 (file : Option (List Char)) (readOk writeOk : Bool) :
    PatchOutcome :=
  match file with
  | none => ⟨false, false, none⟩
  | some c =>
    if readOk = false then ⟨false, false, some c⟩
    else if modifiedProp c then
      if writeOk then ⟨true, true, some (patchContent c)⟩
      else ⟨false, true, some c⟩
    else ⟨true, false, some c⟩

/-- The `__main__` block (lines 98-102): exit code 0 on a `true` return,
1 on a `false` return. -/
def mainExit (file : Option (List Char)) (readOk writeOk : Bool) : Nat :=
  if (patch_aiter_for_gfx1201 file readOk writeOk).ret then 0 else 1

/-- Whether the regex matches at some position of the content. -/
def anyMatch : List Char → Bool
  | [] => false
  | a :: s => (matchGfx (a :: s)).isSome || anyMatch s

/-- Existence of a regex match, phrased as a factorisation of the
content. -/
def MatchInfix (s : List Char) : Prop :=
  ∃ u w1 w2 v, (∀ c ∈ w1, isPyWs c = true) ∧ (∀ c ∈ w2, isPyWs c = true) ∧
    cbr ∈ v ∧ s = u ++ gfxmapL ++ w1 ++ '=' :: (w2 ++ obr :: v)

/-- No nonempty prefix of `p` is a suffix of `q`. -/
def noTakeSfx (p q : List Char) : Prop := ∀ m < p.length, ¬ ((p.take (m + 1)) <:+ q)

/-- No nonempty suffix of `p` is a prefix of `q`. -/
def noDropPfx (p q : List Char) : Prop := ∀ m < p.length, ¬ ((p.drop m) <+: q)

instance noTakeSfxDec (p q : List Char) : Decidable (noTakeSfx p q) := by
  unfold noTakeSfx; infer_instance

instance noDropPfxDec (p q : List Char) : Decidable (noDropPfx p q) := by
  unfold noDropPfx; infer_instance

/-- The anchor block as the specification text spells it, with four
spaces of indentation before `return`. -/
def anchor4L : List Char := "elif gfx == \"gfx950\":\n    return \"MI350\"".toList

/-- The bare architecture name. -/
def gfx1201L : List Char := "gfx1201".toList

/-- The `GFX_MAP` dictionary literal of the map-insertion test case. -/
def blockL : List Char := "GFX_MAP = \x7b\n    1: \"gfx900\",\n\x7d".toList

/-- The body of that dictionary literal (between the braces). -/
def bodyL : List Char := "\n    1: \"gfx900\",\n".toList

/-- The dictionary literal without its closing brace. -/
def blockPfxL : List Char := "GFX_MAP = \x7b\n    1: \"gfx900\",\n".toList

/-- The expected dictionary literal after the map insertion. -/
def resBlockL : List Char :=
  "GFX_MAP = \x7b\n    1: \"gfx900\",\n    16: \"gfx1201\",\n\x7d".toList

/-- The inserted map entry. -/
def mapEntryL : List Char := "16: \"gfx1201\",".toList

/-- A content that already carries the map entry and the branch header. -/
def c6W : List Char := mapEntryL ++ '\n' :: hdrL

/-- A content with two occurrences of the error-raising statement. -/
def c9W : List Char := errL ++ '\n' :: errL

/-- A content whose only quoted `gfx1201` sits in the branch header,
while its `GFX_MAP` dictionary has no entry for key 16. -/
def c10W : List Char := blockL ++ '\n' :: hdrL

/-- A content without marker and without any `GFX_MAP` pattern match. -/
def c8W : List Char := "x = 1\n".toList

theorem dropPre_iff (pre : List Char) :
    ∀ s r, dropPre pre s = some r ↔ s = pre ++ r := by
  induction pre with
  | nil => intro s r; simp [dropPre, eq_comm]
  | cons p ps ih =>
    intro s r
    cases s with
    | nil => simp [dropPre]
    | cons a s' =>
      by_cases h : p = a
      · subst h
        simp only [dropPre, if_pos rfl, List.cons_append, List.cons.injEq, true_and]
        exact ih s' r
      · simp [dropPre, h, Ne.symm h]

theorem spanWs_append (s : List Char) : (spanWs s).1 ++ (spanWs s).2 = s := by
  induction s with
  | nil => rfl
  | cons a s ih =>
    by_cases h : isPyWs a
    · simp [spanWs, h, ih]
    · simp [spanWs, h]

theorem spanWs_ws (s : List Char) : ∀ c ∈ (spanWs s).1, isPyWs c = true := by
  induction s with
  | nil => intro c hc; simp [spanWs] at hc
  | cons a s ih =>
    intro c hc
    by_cases h : isPyWs a
    · simp [spanWs, h] at hc
      rcases hc with hc | hc
      · subst hc; exact h
      · exact ih c hc
    · simp [spanWs, h] at hc

theorem spanWs_exact (w : List Char) (hw : ∀ c ∈ w, isPyWs c = true)
    (b : Char) (hb : isPyWs b = false) (r : List Char) :
    spanWs (w ++ b :: r) = (w, b :: r) := by
  induction w with
  | nil => simp [spanWs, hb]
  | cons a w ih =>
    have ha : isPyWs a = true := hw a (by simp)
    have ih' := ih (fun c hc => hw c (by simp [hc]))
    simp [spanWs, ha, ih']

theorem breakAt_some (ch : Char) :
    ∀ s B r, breakAt ch s = some (B, r) → s = B ++ ch :: r ∧ ch ∉ B := by
  intro s
  induction s with
  | nil => intro B r h; simp [breakAt] at h
  | cons a s ih =>
    intro B r h
    by_cases ha : a = ch
    · subst ha
      simp [breakAt] at h
      obtain ⟨hB, hr⟩ := h
      subst hB; subst hr
      simp
    · simp only [breakAt, if_neg ha] at h
      cases hb : breakAt ch s with
      | none => rw [hb] at h; simp at h
      | some p =>
        rw [hb] at h
        cases p with
        | mk B' r' =>
          simp at h
          obtain ⟨hB, hr⟩ := h
          obtain ⟨h1, h2⟩ := ih B' r' hb
          subst hB hr
          constructor
          · simp [h1]
          · simp [h2]
            intro hc
            exact ha hc.symm

theorem breakAt_of_mem (ch : Char) :
    ∀ s, ch ∈ s → ∃ B r, breakAt ch s = some (B, r) := by
  intro s
  induction s with
  | nil => intro h; simp at h
  | cons a s ih =>
    intro h
    by_cases ha : a = ch
    · subst ha; exact ⟨[], s, by simp [breakAt]⟩
    · have hs : ch ∈ s := by
        rcases List.mem_cons.mp h with h1 | h1
        · exact absurd h1.symm ha
        · exact h1
      obtain ⟨B, r, hb⟩ := ih hs
      exact ⟨a :: B, r, by simp [breakAt, ha, hb]⟩

theorem breakAt_exact (ch : Char) :
    ∀ B r, ch ∉ B → breakAt ch (B ++ ch :: r) = some (B, r) := by
  intro B
  induction B with
  | nil => intro r _; simp [breakAt]
  | cons a B ih =>
    intro r h
    have ha : a ≠ ch := by intro hc; exact h (by simp [hc])
    have hB : ch ∉ B := fun hc => h (by simp [hc])
    simp [breakAt, ha, ih r hB]

theorem matchGfx_some (s A t : List Char) (h : matchGfx s = some (A, t)) :
    ∃ w1 w2 B, (∀ c ∈ w1, isPyWs c = true) ∧ (∀ c ∈ w2, isPyWs c = true) ∧
      cbr ∉ B ∧ A = gfxmapL ++ w1 ++ '=' :: (w2 ++ obr :: B) ∧ s = A ++ cbr :: t := by
  unfold matchGfx at h
  split at h
  · exact absurd h (by simp)
  next r1 hd =>
    split at h
    next w1 r2 hsp =>
      split at h
      · exact absurd h (by simp)
      next c1 r3 =>
        split at h
        next hc1 =>
          subst hc1
          split at h
          next w2 r4 hsp2 =>
            split at h
            · exact absurd h (by simp)
            next c2 r5 =>
              split at h
              next hc2 =>
                subst hc2
                split at h
                next B r6 hb =>
                  simp only [Option.some.injEq, Prod.mk.injEq] at h
                  obtain ⟨hA, ht⟩ := h
                  have hs1 : s = gfxmapL ++ r1 := (dropPre_iff _ _ _).mp hd
                  have hr1 : w1 ++ '=' :: r3 = r1 := by
                    have h0 := spanWs_append r1; rw [hsp] at h0; simpa using h0
                  have hw1 : ∀ c ∈ w1, isPyWs c = true := by
                    have h0 := spanWs_ws r1; rw [hsp] at h0; simpa using h0
                  have hr3 : w2 ++ obr :: r5 = r3 := by
                    have h0 := spanWs_append r3; rw [hsp2] at h0; simpa using h0
                  have hw2 : ∀ c ∈ w2, isPyWs c = true := by
                    have h0 := spanWs_ws r3; rw [hsp2] at h0; simpa using h0
                  obtain ⟨hr5, hnb⟩ := breakAt_some cbr r5 B r6 hb
                  refine ⟨w1, w2, B, hw1, hw2, hnb, hA.symm, ?_⟩
                  subst ht
                  rw [hs1, ← hr1, ← hr3, hr5, ← hA]
                  simp
                next hb => exact absurd h (by simp)
              next hc2 => exact absurd h (by simp)
        next hc1 => exact absurd h (by simp)

theorem matchGfx_lt (s A t : List Char) (h : matchGfx s = some (A, t)) :
    t.length < s.length := by
  obtain ⟨w1, w2, B, _, _, _, _, hs⟩ := matchGfx_some s A t h
  rw [hs]
  simp
  omega

theorem gfxSubAux_irrel : ∀ n m s, s.length ≤ n → s.length ≤ m →
    gfxSubAux n s = gfxSubAux m s := by
  intro n
  induction n with
  | zero =>
    intro m s hn _
    have hs : s = [] := by
      cases s with
      | nil => rfl
      | cons a s' => simp at hn
    subst hs
    cases m <;> rfl
  | succ n ih =>
    intro m s hn hm
    cases s with
    | nil => cases m <;> rfl
    | cons a s' =>
      cases m with
      | zero => simp at hm
      | succ m' =>
        cases hma : matchGfx (a :: s') with
        | some p =>
          cases p with
          | mk A t =>
            have hlt := matchGfx_lt _ _ _ hma
            simp only [List.length_cons] at hlt hn hm
            simp only [gfxSubAux, hma]
            rw [ih m' t (by omega) (by omega)]
        | none =>
          simp only [List.length_cons] at hn hm
          simp only [gfxSubAux, hma]
          rw [ih m' s' (by omega) (by omega)]

theorem gfxSub_nil : gfxSub [] = [] := rfl

theorem gfxSub_match (a : Char) (s A t : List Char)
    (h : matchGfx (a :: s) = some (A, t)) :
    gfxSub (a :: s) = A ++ insL ++ cbr :: gfxSub t := by
  have hlt := matchGfx_lt _ _ _ h
  simp only [List.length_cons] at hlt
  unfold gfxSub
  simp only [List.length_cons, gfxSubAux, h]
  rw [gfxSubAux_irrel s.length t.length t (by omega) (by omega)]

theorem gfxSub_nomatch (a : Char) (s : List Char)
    (h : matchGfx (a :: s) = none) :
    gfxSub (a :: s) = a :: gfxSub s := by
  unfold gfxSub
  simp only [List.length_cons, gfxSubAux, h]

theorem replaceAll_nil (pat repl : List Char) : replaceAll pat repl [] = [] := by
  simp [replaceAll]

theorem replaceAll_neg (pat repl : List Char) (a : Char) (s : List Char)
    (h : ¬ pat <+: (a :: s)) :
    replaceAll pat repl (a :: s) = a :: replaceAll pat repl s := by
  rw [replaceAll, if_neg]
  intro hc
  exact h hc.2

theorem replaceAll_eat (pat repl : List Char) (hp : pat ≠ []) (s₂ : List Char) :
    replaceAll pat repl (pat ++ s₂) = repl ++ replaceAll pat repl s₂ := by
  cases pat with
  | nil => exact absurd rfl hp
  | cons p ps =>
    rw [List.cons_append, replaceAll, if_pos]
    · have h2 : List.drop ((p :: ps).length - 1) (ps ++ s₂) = s₂ := by
        simp
      rw [h2]
    · exact ⟨hp, ⟨s₂, by simp⟩⟩

theorem pre_split (q X Y : List Char) (h : q <+: X ++ Y) :
    q <+: X ∨ ∃ r, q = X ++ r ∧ r <+: Y := by
  induction X generalizing q with
  | nil =>
    right
    exact ⟨q, by simp, by simpa using h⟩
  | cons x X ih =>
    cases q with
    | nil => left; exact List.nil_prefix
    | cons a q' =>
      rw [List.cons_append] at h
      obtain ⟨hax, hq⟩ := List.cons_prefix_cons.mp h
      subst hax
      rcases ih q' hq with h1 | ⟨r, hr1, hr2⟩
      · left; exact List.cons_prefix_cons.mpr ⟨rfl, h1⟩
      · right; exact ⟨r, by rw [hr1]; simp, hr2⟩

theorem inf_split (p X Y : List Char) (h : p <:+: X ++ Y) :
    p <:+: X ∨ p <:+: Y ∨
      ∃ p₁ p₂, p = p₁ ++ p₂ ∧ p₁ ≠ [] ∧ p₂ ≠ [] ∧ p₁ <:+ X ∧ p₂ <+: Y := by
  induction X generalizing p with
  | nil => right; left; simpa using h
  | cons x X ih =>
    rw [List.cons_append] at h
    rcases List.infix_cons_iff.mp h with h1 | h1
    · cases p with
      | nil => left; exact List.nil_infix
      | cons a p' =>
        obtain ⟨hax, hp⟩ := List.cons_prefix_cons.mp h1
        subst hax
        rcases pre_split p' X Y hp with h2 | ⟨r, hr1, hr2⟩
        · left
          exact List.IsPrefix.isInfix (List.cons_prefix_cons.mpr ⟨rfl, h2⟩)
        · subst hr1
          by_cases hr : r = []
          · subst hr
            left
            simp only [List.append_nil]
            exact List.infix_rfl
          · right; right
            exact ⟨a :: X, r, by simp, by simp, hr, List.suffix_rfl, hr2⟩
    · rcases ih p h1 with h2 | h2 | ⟨p₁, p₂, h3, h4, h5, h6, h7⟩
      · left; exact h2.trans (List.IsSuffix.isInfix (List.suffix_cons x X))
      · right; left; exact h2
      · right; right
        exact ⟨p₁, p₂, h3, h4, h5, h6.trans (List.suffix_cons x X), h7⟩

theorem cond_take (p q : List Char) (h : noTakeSfx p q) :
    ∀ r, r ≠ [] → r <+: p → ¬ r <:+ q := by
  intro r hne hr
  have hlen : r.length ≤ p.length := hr.length_le
  have h1 : r.length ≠ 0 := fun h0 => hne (List.length_eq_zero.mp h0)
  have heq : r = p.take r.length := List.prefix_iff_eq_take.mp hr
  have hm : r.length - 1 < p.length := by omega
  have h2 := h (r.length - 1) hm
  rw [show r.length - 1 + 1 = r.length by omega] at h2
  rw [heq]
  exact h2

theorem cond_drop (p q : List Char) (h : noDropPfx p q) :
    ∀ r, r ≠ [] → r <:+ p → ¬ r <+: q := by
  intro r hne hr
  have hlen : r.length ≤ p.length := hr.length_le
  have h1 : r.length ≠ 0 := fun h0 => hne (List.length_eq_zero.mp h0)
  have heq : r = p.drop (p.length - r.length) := List.suffix_iff_eq_drop.mp hr
  have hm : p.length - r.length < p.length := by omega
  have h2 := h (p.length - r.length) hm
  rw [heq]
  exact h2

theorem replaceAll_has_repl (pat repl : List Char) (hp : pat ≠ []) :
    ∀ s, pat <:+: s → repl <:+: replaceAll pat repl s := by
  have main : ∀ n s, s.length ≤ n → pat <:+: s → repl <:+: replaceAll pat repl s := by
    intro n
    induction n with
    | zero =>
      intro s hl hinf
      have hs : s = [] := List.length_eq_zero.mp (Nat.le_zero.mp hl)
      subst hs
      exact absurd (List.infix_nil.mp hinf) hp
    | succ n ih =>
      intro s hl hinf
      cases s with
      | nil => exact absurd (List.infix_nil.mp hinf) hp
      | cons a s' =>
        by_cases hpp : pat <+: (a :: s')
        · obtain ⟨s₂, hs₂⟩ := hpp
          rw [← hs₂, replaceAll_eat pat repl hp]
          exact List.IsPrefix.isInfix (List.prefix_append repl _)
        · rw [replaceAll_neg pat repl a s' hpp]
          rcases List.infix_cons_iff.mp hinf with h1 | h1
          · exact absurd h1 hpp
          · have hlen : s'.length ≤ n := by simp at hl; omega
            exact (ih s' hlen h1).trans (List.IsSuffix.isInfix (List.suffix_cons a _))
  intro s
  exact main s.length s le_rfl

theorem replaceAll_id (pat repl : List Char) :
    ∀ s, ¬ pat <:+: s → replaceAll pat repl s = s := by
  have main : ∀ n s, s.length ≤ n → ¬ pat <:+: s → replaceAll pat repl s = s := by
    intro n
    induction n with
    | zero =>
      intro s hl _
      have hs : s = [] := List.length_eq_zero.mp (Nat.le_zero.mp hl)
      subst hs
      exact replaceAll_nil pat repl
    | succ n ih =>
      intro s hl hninf
      cases s with
      | nil => exact replaceAll_nil pat repl
      | cons a s' =>
        have hpp : ¬ pat <+: (a :: s') := fun hc => hninf (List.IsPrefix.isInfix hc)
        rw [replaceAll_neg pat repl a s' hpp]
        have hn2 : ¬ pat <:+: s' := fun hc => hninf (List.infix_cons_iff.mpr (Or.inr hc))
        have hlen : s'.length ≤ n := by simp at hl; omega
        rw [ih s' hlen hn2]
  intro s
  exact main s.length s le_rfl

theorem replaceAll_keepPre (pat repl p : List Char)
    (hdropC : noDropPfx p pat) (hpatp : ¬ pat <:+: p) :
    ∀ s q, q <:+ p → q <+: s → q <+: replaceAll pat repl s := by
  have main : ∀ n s, s.length ≤ n → ∀ q, q <:+ p → q <+: s →
      q <+: replaceAll pat repl s := by
    intro n
    induction n with
    | zero =>
      intro s hl q _ hq
      have hs : s = [] := List.length_eq_zero.mp (Nat.le_zero.mp hl)
      subst hs
      rw [replaceAll_nil]
      exact hq
    | succ n ih =>
      intro s hl q hqp hq
      cases s with
      | nil => rw [replaceAll_nil]; exact hq
      | cons a s' =>
        by_cases hpp : pat <+: (a :: s')
        · rcases List.prefix_or_prefix_of_prefix hq hpp with h1 | h1
          · by_cases hqe : q = []
            · subst hqe; exact List.nil_prefix
            · exact absurd h1 (cond_drop p pat hdropC q hqe hqp)
          · exact absurd
              (( List.IsPrefix.isInfix h1).trans ( List.IsSuffix.isInfix hqp)) hpatp
        · rw [replaceAll_neg pat repl a s' hpp]
          cases q with
          | nil => exact List.nil_prefix
          | cons b q' =>
            obtain ⟨hab, hq'⟩ := List.cons_prefix_cons.mp hq
            subst hab
            have hq'p : q' <:+ p := (List.suffix_cons b q').trans hqp
            have hlen : s'.length ≤ n := by simp at hl; omega
            exact List.cons_prefix_cons.mpr ⟨rfl, ih s' hlen q' hq'p hq'⟩
  intro s
  exact main s.length s le_rfl

theorem replaceAll_keepInf (pat repl p : List Char) (hp : pat ≠ [])
    (htakeC : noTakeSfx p pat) (hdropC : noDropPfx p pat)
    (hpatp : ¬ pat <:+: p) (hpin : ¬ p <:+: pat) :
    ∀ s, p <:+: s → p <:+: replaceAll pat repl s := by
  have main : ∀ n s, s.length ≤ n → p <:+: s → p <:+: replaceAll pat repl s := by
    intro n
    induction n with
    | zero =>
      intro s hl hinf
      have hs : s = [] := List.length_eq_zero.mp (Nat.le_zero.mp hl)
      subst hs
      rw [replaceAll_nil]
      exact hinf
    | succ n ih =>
      intro s hl hinf
      cases s with
      | nil => rw [replaceAll_nil]; exact hinf
      | cons a s' =>
        by_cases hpp : pat <+: (a :: s')
        · obtain ⟨s₂, hs₂⟩ := hpp
          rw [← hs₂, replaceAll_eat pat repl hp]
          rw [← hs₂] at hl
          have hl₂ : s₂.length ≤ n := by
            simp at hl
            have hp1 : 1 ≤ pat.length := by
              cases pat with
              | nil => exact absurd rfl hp
              | cons x xs => simp
            omega
          rcases inf_split p pat s₂ (hs₂ ▸ hinf) with h1 | h1 | ⟨p₁, p₂, h3, h4, h5, h6, h7⟩
          · exact absurd h1 hpin
          · exact (ih s₂ hl₂ h1).trans ( List.IsSuffix.isInfix (List.suffix_append repl _))
          · have : p₁ <+: p := h3 ▸ List.prefix_append p₁ p₂
            exact absurd h6 (cond_take p pat htakeC p₁ h4 this)
        · rw [replaceAll_neg pat repl a s' hpp]
          rcases List.infix_cons_iff.mp hinf with h1 | h1
          · have := replaceAll_keepPre pat repl p hdropC hpatp (a :: s') p
              List.suffix_rfl h1
            rw [replaceAll_neg pat repl a s' hpp] at this
            exact List.IsPrefix.isInfix this
          · have hlen : s'.length ≤ n := by simp at hl; omega
            exact (ih s' hlen h1).trans ( List.IsSuffix.isInfix (List.suffix_cons a _))
  intro s
  exact main s.length s le_rfl

theorem replaceAll_pullPre (pat repl p : List Char) (hp : pat ≠ [])
    (hdropR : noDropPfx p repl) (hreplp : ¬ repl <:+: p) :
    ∀ s q, q <:+ p → q <+: replaceAll pat repl s → q <+: s := by
  have main : ∀ n s, s.length ≤ n → ∀ q, q <:+ p →
      q <+: replaceAll pat repl s → q <+: s := by
    intro n
    induction n with
    | zero =>
      intro s hl q _ hq
      have hs : s = [] := List.length_eq_zero.mp (Nat.le_zero.mp hl)
      subst hs
      rw [replaceAll_nil] at hq
      exact hq
    | succ n ih =>
      intro s hl q hqp hq
      cases s with
      | nil => rw [replaceAll_nil] at hq; exact hq
      | cons a s' =>
        by_cases hpp : pat <+: (a :: s')
        · obtain ⟨s₂, hs₂⟩ := hpp
          rw [← hs₂, replaceAll_eat pat repl hp] at hq
          rcases pre_split q repl (replaceAll pat repl s₂) hq with h1 | ⟨r, hr1, hr2⟩
          · by_cases hqe : q = []
            · subst hqe; exact List.nil_prefix
            · exact absurd h1 (cond_drop p repl hdropR q hqe hqp)
          · have h1 : repl <+: q := hr1 ▸ List.prefix_append repl r
            have h2 : repl <:+: p :=
              ( List.IsPrefix.isInfix h1).trans ( List.IsSuffix.isInfix hqp)
            exact absurd h2 hreplp
        · rw [replaceAll_neg pat repl a s' hpp] at hq
          cases q with
          | nil => exact List.nil_prefix
          | cons b q' =>
            obtain ⟨hab, hq'⟩ := List.cons_prefix_cons.mp hq
            subst hab
            have hq'p : q' <:+ p := (List.suffix_cons b q').trans hqp
            have hlen : s'.length ≤ n := by simp at hl; omega
            exact List.cons_prefix_cons.mpr ⟨rfl, ih s' hlen q' hq'p hq'⟩
  intro s
  exact main s.length s le_rfl

theorem replaceAll_pullInf (pat repl p : List Char) (hp : pat ≠ [])
    (htakeR : noTakeSfx p repl) (hdropR : noDropPfx p repl)
    (hreplp : ¬ repl <:+: p) (hpinr : ¬ p <:+: repl) :
    ∀ s, p <:+: replaceAll pat repl s → p <:+: s := by
  have main : ∀ n s, s.length ≤ n → p <:+: replaceAll pat repl s → p <:+: s := by
    intro n
    induction n with
    | zero =>
      intro s hl hq
      have hs : s = [] := List.length_eq_zero.mp (Nat.le_zero.mp hl)
      subst hs
      rw [replaceAll_nil] at hq
      exact hq
    | succ n ih =>
      intro s hl hq
      cases s with
      | nil => rw [replaceAll_nil] at hq; exact hq
      | cons a s' =>
        by_cases hpp : pat <+: (a :: s')
        · obtain ⟨s₂, hs₂⟩ := hpp
          rw [← hs₂, replaceAll_eat pat repl hp] at hq
          rw [← hs₂] at hl ⊢
          have hl₂ : s₂.length ≤ n := by
            simp at hl
            have hp1 : 1 ≤ pat.length := by
              cases pat with
              | nil => exact absurd rfl hp
              | cons x xs => simp
            omega
          rcases inf_split p repl _ hq with h1 | h1 | ⟨p₁, p₂, h3, h4, h5, h6, h7⟩
          · exact absurd h1 hpinr
          · exact (ih s₂ hl₂ h1).trans ( List.IsSuffix.isInfix (List.suffix_append pat s₂))
          · have hpre : p₁ <+: p := h3 ▸ List.prefix_append p₁ p₂
            exact absurd h6 (cond_take p repl htakeR p₁ h4 hpre)
        · rw [replaceAll_neg pat repl a s' hpp] at hq
          rcases List.infix_cons_iff.mp hq with h1 | h1
          · cases p with
            | nil => exact List.nil_infix
            | cons b p' =>
              obtain ⟨hab, hp'⟩ := List.cons_prefix_cons.mp h1
              subst hab
              have hsf : p' <:+ b :: p' := List.suffix_cons b p'
              have h2 := replaceAll_pullPre pat repl (b :: p') hp hdropR hreplp s' p' hsf hp'
              exact List.IsPrefix.isInfix (List.cons_prefix_cons.mpr ⟨rfl, h2⟩)
          · have hlen : s'.length ≤ n := by simp at hl; omega
            exact (ih s' hlen h1).trans ( List.IsSuffix.isInfix (List.suffix_cons a s'))
  intro s
  exact main s.length s le_rfl

theorem replaceAll_elim (pat repl : List Char) (hp : pat ≠ [])
    (htakeR : noTakeSfx pat repl) (hdropR : noDropPfx pat repl)
    (hreplp : ¬ repl <:+: pat) (hpinr : ¬ pat <:+: repl) :
    ∀ s, ¬ pat <:+: replaceAll pat repl s := by
  have main : ∀ n s, s.length ≤ n → ¬ pat <:+: replaceAll pat repl s := by
    intro n
    induction n with
    | zero =>
      intro s hl hq
      have hs : s = [] := List.length_eq_zero.mp (Nat.le_zero.mp hl)
      subst hs
      rw [replaceAll_nil] at hq
      exact hp (List.infix_nil.mp hq)
    | succ n ih =>
      intro s hl hq
      cases s with
      | nil => rw [replaceAll_nil] at hq; exact hp (List.infix_nil.mp hq)
      | cons a s' =>
        by_cases hpp : pat <+: (a :: s')
        · obtain ⟨s₂, hs₂⟩ := hpp
          rw [← hs₂, replaceAll_eat pat repl hp] at hq
          rw [← hs₂] at hl
          have hl₂ : s₂.length ≤ n := by
            simp at hl
            have hp1 : 1 ≤ pat.length := by
              cases pat with
              | nil => exact absurd rfl hp
              | cons x xs => simp
            omega
          rcases inf_split pat repl _ hq with h1 | h1 | ⟨p₁, p₂, h3, h4, h5, h6, h7⟩
          · exact hpinr h1
          · exact ih s₂ hl₂ h1
          · have hpre : p₁ <+: pat := h3 ▸ List.prefix_append p₁ p₂
            exact cond_take pat repl htakeR p₁ h4 hpre h6
        · rw [replaceAll_neg pat repl a s' hpp] at hq
          rcases List.infix_cons_iff.mp hq with h1 | h1
          · cases pat with
            | nil => exact hp rfl
            | cons b pt' =>
              obtain ⟨hab, hpt⟩ := List.cons_prefix_cons.mp h1
              subst hab
              have hsf : pt' <:+ b :: pt' := List.suffix_cons b pt'
              have h2 := replaceAll_pullPre (b :: pt') repl (b :: pt') hp hdropR hreplp
                s' pt' hsf hpt
              exact hpp (List.cons_prefix_cons.mpr ⟨rfl, h2⟩)
          · have hlen : s'.length ≤ n := by simp at hl; omega
            exact ih s' hlen h1
  intro s
  exact main s.length s le_rfl

theorem replaceAll_memPull (pat repl : List Char) (hp : pat ≠ []) (c : Char)
    (hc : c ∉ repl) : ∀ s, c ∈ replaceAll pat repl s → c ∈ s := by
  have main : ∀ n s, s.length ≤ n → c ∈ replaceAll pat repl s → c ∈ s := by
    intro n
    induction n with
    | zero =>
      intro s hl hq
      have hs : s = [] := List.length_eq_zero.mp (Nat.le_zero.mp hl)
      subst hs
      rw [replaceAll_nil] at hq
      exact hq
    | succ n ih =>
      intro s hl hq
      cases s with
      | nil => rw [replaceAll_nil] at hq; exact hq
      | cons a s' =>
        by_cases hpp : pat <+: (a :: s')
        · obtain ⟨s₂, hs₂⟩ := hpp
          rw [← hs₂, replaceAll_eat pat repl hp] at hq
          rw [← hs₂] at hl ⊢
          have hl₂ : s₂.length ≤ n := by
            simp at hl
            have hp1 : 1 ≤ pat.length := by
              cases pat with
              | nil => exact absurd rfl hp
              | cons x xs => simp
            omega
          rcases List.mem_append.mp hq with h1 | h1
          · exact absurd h1 hc
          · exact List.mem_append.mpr (Or.inr (ih s₂ hl₂ h1))
        · rw [replaceAll_neg pat repl a s' hpp] at hq
          rcases List.mem_cons.mp hq with h1 | h1
          · exact List.mem_cons.mpr (Or.inl h1)
          · have hlen : s'.length ≤ n := by simp at hl; omega
            exact List.mem_cons.mpr (Or.inr (ih s' hlen h1))
  intro s
  exact main s.length s le_rfl

theorem replaceAll_peel (pat repl : List Char) (hp : pat ≠ [])
    (b : Char) (rl : List Char) (hb : repl = b :: rl) :
    ∀ s q rOut, b ∉ q → replaceAll pat repl s = q ++ rOut →
      ∃ rSrc, s = q ++ rSrc ∧ rOut = replaceAll pat repl rSrc := by
  have main : ∀ n s, s.length ≤ n → ∀ q rOut, b ∉ q →
      replaceAll pat repl s = q ++ rOut →
      ∃ rSrc, s = q ++ rSrc ∧ rOut = replaceAll pat repl rSrc := by
    intro n
    induction n with
    | zero =>
      intro s hl q rOut hbq heq
      have hs : s = [] := List.length_eq_zero.mp (Nat.le_zero.mp hl)
      subst hs
      rw [replaceAll_nil] at heq
      obtain ⟨hq0, hr0⟩ := List.append_eq_nil.mp heq.symm
      subst hq0; subst hr0
      exact ⟨[], rfl, (replaceAll_nil pat repl).symm⟩
    | succ n ih =>
      intro s hl q rOut hbq heq
      cases s with
      | nil =>
        rw [replaceAll_nil] at heq
        obtain ⟨hq0, hr0⟩ := List.append_eq_nil.mp heq.symm
        subst hq0; subst hr0
        exact ⟨[], rfl, (replaceAll_nil pat repl).symm⟩
      | cons a s' =>
        cases q with
        | nil =>
          simp only [List.nil_append] at heq
          exact ⟨a :: s', rfl, heq.symm⟩
        | cons d q' =>
          have hbq' : b ∉ q' := fun hx => hbq (List.mem_cons.mpr (Or.inr hx))
          by_cases hpp : pat <+: (a :: s')
          · obtain ⟨s₂, hs₂⟩ := hpp
            rw [← hs₂, replaceAll_eat pat repl hp, hb] at heq
            rw [List.cons_append] at heq
            have hbd : b = d := (List.cons.injEq _ _ _ _ ▸ heq).1
            exact absurd (List.mem_cons.mpr (Or.inl hbd)) hbq
          · rw [replaceAll_neg pat repl a s' hpp] at heq
            rw [List.cons_append] at heq
            have had : a = d := (List.cons.injEq _ _ _ _ ▸ heq).1
            have htl : replaceAll pat repl s' = q' ++ rOut :=
              (List.cons.injEq _ _ _ _ ▸ heq).2
            have hlen : s'.length ≤ n := by simp at hl; omega
            obtain ⟨rSrc, h1, h2⟩ := ih s' hlen q' rOut hbq' htl
            refine ⟨rSrc, ?_, h2⟩
            rw [List.cons_append, ← had, h1]
  intro s
  exact main s.length s le_rfl

theorem pre_app2 (A B C : List Char) : A <+: A ++ B ++ C :=
  (List.prefix_append A B).trans (List.prefix_append (A ++ B) C)

theorem gfxSub_len_ge : ∀ s : List Char, s.length ≤ (gfxSub s).length := by
  have main : ∀ n s, s.length ≤ n → s.length ≤ (gfxSub s).length := by
    intro n
    induction n with
    | zero =>
      intro s hl
      have hs : s = [] := List.length_eq_zero.mp (Nat.le_zero.mp hl)
      subst hs
      simp [gfxSub_nil]
    | succ n ih =>
      intro s hl
      cases s with
      | nil => simp [gfxSub_nil]
      | cons a s' =>
        cases hma : matchGfx (a :: s') with
        | some p =>
          cases p with
          | mk A t =>
            obtain ⟨w1, w2, B, _, _, _, _, hsd⟩ := matchGfx_some _ _ _ hma
            rw [gfxSub_match a s' A t hma]
            have hlen : (a :: s').length = A.length + 1 + t.length := by
              rw [hsd]
              simp only [List.length_append, List.length_cons]
              omega
            have htn : t.length ≤ n := by
              have := hl
              simp only [List.length_cons] at this
              omega
            have := ih t htn
            simp only [List.length_append, List.length_cons] at hlen ⊢
            omega
        | none =>
          rw [gfxSub_nomatch a s' hma]
          have hlen : s'.length ≤ n := by simp at hl; omega
          have := ih s' hlen
          simp only [List.length_cons]
          omega
  intro s
  exact main s.length s le_rfl

theorem gfxSub_len_gt : ∀ s : List Char, anyMatch s = true →
    s.length < (gfxSub s).length := by
  have main : ∀ n s, s.length ≤ n → anyMatch s = true →
      s.length < (gfxSub s).length := by
    intro n
    induction n with
    | zero =>
      intro s hl hm
      have hs : s = [] := List.length_eq_zero.mp (Nat.le_zero.mp hl)
      subst hs
      simp [anyMatch] at hm
    | succ n ih =>
      intro s hl hm
      cases s with
      | nil => simp [anyMatch] at hm
      | cons a s' =>
        cases hma : matchGfx (a :: s') with
        | some p =>
          cases p with
          | mk A t =>
            obtain ⟨w1, w2, B, _, _, _, _, hsd⟩ := matchGfx_some _ _ _ hma
            rw [gfxSub_match a s' A t hma]
            have hlen : (a :: s').length = A.length + 1 + t.length := by
              rw [hsd]
              simp only [List.length_append, List.length_cons]
              omega
            have := gfxSub_len_ge t
            have hins : insL.length = 19 := by decide
            simp only [List.length_append, List.length_cons] at hlen ⊢
            omega
        | none =>
          rw [gfxSub_nomatch a s' hma]
          have hm' : anyMatch s' = true := by
            simp only [anyMatch, hma, Option.isSome_none, Bool.false_or] at hm
            exact hm
          have hlen : s'.length ≤ n := by simp at hl; omega
          have := ih s' hlen hm'
          simp only [List.length_cons]
          omega
  intro s
  exact main s.length s le_rfl

theorem gfxSub_id_of_noMatch : ∀ s : List Char, anyMatch s = false → gfxSub s = s := by
  intro s
  induction s with
  | nil => intro _; exact gfxSub_nil
  | cons a s' ih =>
    intro hm
    simp only [anyMatch, Bool.or_eq_false_iff] at hm
    obtain ⟨h1, h2⟩ := hm
    have hma : matchGfx (a :: s') = none := by
      cases hmm : matchGfx (a :: s') with
      | none => rfl
      | some p => rw [hmm] at h1; simp at h1
    rw [gfxSub_nomatch a s' hma, ih h2]

theorem gfxSub_id_iff (s : List Char) : gfxSub s = s ↔ anyMatch s = false := by
  constructor
  · intro h
    cases hm : anyMatch s with
    | false => rfl
    | true =>
      have := gfxSub_len_gt s hm
      rw [h] at this
      omega
  · exact gfxSub_id_of_noMatch s

theorem gfxSub_keepPre (p : List Char) (hbr : cbr ∉ p) :
    ∀ s q, q <:+ p → q <+: s → q <+: gfxSub s := by
  have main : ∀ n s, s.length ≤ n → ∀ q, q <:+ p → q <+: s → q <+: gfxSub s := by
    intro n
    induction n with
    | zero =>
      intro s hl q _ hq
      have hs : s = [] := List.length_eq_zero.mp (Nat.le_zero.mp hl)
      subst hs
      rw [gfxSub_nil]
      exact hq
    | succ n ih =>
      intro s hl q hqp hq
      cases s with
      | nil => rw [gfxSub_nil]; exact hq
      | cons a s' =>
        cases hma : matchGfx (a :: s') with
        | some pr =>
          cases pr with
          | mk A t =>
            obtain ⟨w1, w2, B, _, _, _, _, hsd⟩ := matchGfx_some _ _ _ hma
            rw [gfxSub_match a s' A t hma]
            rw [hsd] at hq
            rcases pre_split q A (cbr :: t) hq with h1 | ⟨r, hr1, hr2⟩
            · exact h1.trans (pre_app2 A insL _)
            · cases r with
              | nil =>
                rw [List.append_nil] at hr1
                exact hr1 ▸ pre_app2 A insL _
              | cons d r' =>
                obtain ⟨hd, _⟩ := List.cons_prefix_cons.mp hr2
                subst hd
                have : cbr ∈ q := by rw [hr1]; simp
                exact absurd this (fun hx => hbr (List.IsSuffix.mem hx hqp))
        | none =>
          rw [gfxSub_nomatch a s' hma]
          cases q with
          | nil => exact List.nil_prefix
          | cons b q' =>
            obtain ⟨hab, hq'⟩ := List.cons_prefix_cons.mp hq
            subst hab
            have hq'p : q' <:+ p := (List.suffix_cons b q').trans hqp
            have hlen : s'.length ≤ n := by simp at hl; omega
            exact List.cons_prefix_cons.mpr ⟨rfl, ih s' hlen q' hq'p hq'⟩
  intro s
  exact main s.length s le_rfl

theorem gfxSub_keepInf (p : List Char) (hbr : cbr ∉ p) :
    ∀ s, p <:+: s → p <:+: gfxSub s := by
  have main : ∀ n s, s.length ≤ n → p <:+: s → p <:+: gfxSub s := by
    intro n
    induction n with
    | zero =>
      intro s hl hq
      have hs : s = [] := List.length_eq_zero.mp (Nat.le_zero.mp hl)
      subst hs
      rw [gfxSub_nil]
      exact hq
    | succ n ih =>
      intro s hl hq
      cases s with
      | nil => rw [gfxSub_nil]; exact hq
      | cons a s' =>
        cases hma : matchGfx (a :: s') with
        | some pr =>
          cases pr with
          | mk A t =>
            obtain ⟨w1, w2, B, _, _, _, _, hsd⟩ := matchGfx_some _ _ _ hma
            rw [gfxSub_match a s' A t hma]
            rw [hsd] at hq hl
            have htn : t.length ≤ n := by
              simp only [List.length_append, List.length_cons] at hl
              omega
            rcases inf_split p A (cbr :: t) hq with h1 | h1 | ⟨p₁, p₂, h3, h4, h5, h6, h7⟩
            · exact h1.trans ( List.IsPrefix.isInfix (pre_app2 A insL _))
            · rcases List.infix_cons_iff.mp h1 with h2 | h2
              · cases p with
                | nil => exact List.nil_infix
                | cons d p' =>
                  obtain ⟨hd, _⟩ := List.cons_prefix_cons.mp h2
                  subst hd
                  exact absurd (List.mem_cons_self _ _) hbr
              · have := ih t htn h2
                refine this.trans ( List.IsSuffix.isInfix ?_)
                have : A ++ insL ++ cbr :: gfxSub t = (A ++ insL ++ [cbr]) ++ gfxSub t := by
                  simp
                rw [this]
                exact List.suffix_append _ _
            · cases p₂ with
              | nil => exact absurd rfl h5
              | cons d p₂' =>
                obtain ⟨hd, _⟩ := List.cons_prefix_cons.mp h7
                subst hd
                have : cbr ∈ p := by rw [h3]; simp
                exact absurd this hbr
        | none =>
          rw [gfxSub_nomatch a s' hma]
          rcases List.infix_cons_iff.mp hq with h1 | h1
          · have h2 := gfxSub_keepPre p hbr (a :: s') p List.suffix_rfl h1
            rw [gfxSub_nomatch a s' hma] at h2
            exact List.IsPrefix.isInfix h2
          · have hlen : s'.length ≤ n := by simp at hl; omega
            exact (ih s' hlen h1).trans ( List.IsSuffix.isInfix (List.suffix_cons a _))
  intro s
  exact main s.length s le_rfl

theorem gfxSub_pullPre (p : List Char) (_hbr : cbr ∉ p)
    (hnoins : noDropPfx p insL) (hinsp : ¬ insL <:+: p) :
    ∀ s q, q <:+ p → q <+: gfxSub s → q <+: s := by
  have main : ∀ n s, s.length ≤ n → ∀ q, q <:+ p → q <+: gfxSub s → q <+: s := by
    intro n
    induction n with
    | zero =>
      intro s hl q _ hq
      have hs : s = [] := List.length_eq_zero.mp (Nat.le_zero.mp hl)
      subst hs
      rw [gfxSub_nil] at hq
      exact hq
    | succ n ih =>
      intro s hl q hqp hq
      cases s with
      | nil => rw [gfxSub_nil] at hq; exact hq
      | cons a s' =>
        cases hma : matchGfx (a :: s') with
        | some pr =>
          cases pr with
          | mk A t =>
            obtain ⟨w1, w2, B, _, _, _, _, hsd⟩ := matchGfx_some _ _ _ hma
            rw [gfxSub_match a s' A t hma, List.append_assoc] at hq
            rcases pre_split q A (insL ++ cbr :: gfxSub t) hq with h1 | ⟨r, hr1, hr2⟩
            · rw [hsd]
              exact h1.trans (List.prefix_append A _)
            · by_cases hre : r = []
              · subst hre
                rw [List.append_nil] at hr1
                rw [hsd, hr1]
                exact List.prefix_append A _
              · have hrq : r <:+ q := hr1 ▸ List.suffix_append A r
                rcases pre_split r insL (cbr :: gfxSub t) hr2 with h2 | ⟨r₂, hr21, hr22⟩
                · exact absurd h2 (cond_drop p insL hnoins r hre (hrq.trans hqp))
                · have hin : insL <:+: q :=
                    ( List.IsPrefix.isInfix (hr21 ▸ List.prefix_append insL r₂)).trans
                      ( List.IsSuffix.isInfix hrq)
                  exact absurd (hin.trans ( List.IsSuffix.isInfix hqp)) hinsp
        | none =>
          rw [gfxSub_nomatch a s' hma] at hq
          cases q with
          | nil => exact List.nil_prefix
          | cons b q' =>
            obtain ⟨hab, hq'⟩ := List.cons_prefix_cons.mp hq
            subst hab
            have hq'p : q' <:+ p := (List.suffix_cons b q').trans hqp
            have hlen : s'.length ≤ n := by simp at hl; omega
            exact List.cons_prefix_cons.mpr ⟨rfl, ih s' hlen q' hq'p hq'⟩
  intro s
  exact main s.length s le_rfl

theorem gfxSub_pullInf (p : List Char) (hbr : cbr ∉ p)
    (hnoins : noDropPfx p insL) (hinsp : ¬ insL <:+: p)
    (hpins : ¬ p <:+: insL) :
    ∀ s, p <:+: gfxSub s → p <:+: s := by
  have main : ∀ n s, s.length ≤ n → p <:+: gfxSub s → p <:+: s := by
    intro n
    induction n with
    | zero =>
      intro s hl hq
      have hs : s = [] := List.length_eq_zero.mp (Nat.le_zero.mp hl)
      subst hs
      rw [gfxSub_nil] at hq
      exact hq
    | succ n ih =>
      intro s hl hq
      cases s with
      | nil => rw [gfxSub_nil] at hq; exact hq
      | cons a s' =>
        cases hma : matchGfx (a :: s') with
        | some pr =>
          cases pr with
          | mk A t =>
            obtain ⟨w1, w2, B, _, _, _, _, hsd⟩ := matchGfx_some _ _ _ hma
            rw [gfxSub_match a s' A t hma, List.append_assoc] at hq
            have htn : t.length ≤ n := by
              rw [hsd] at hl
              simp only [List.length_append, List.length_cons] at hl
              omega
            rcases inf_split p A (insL ++ cbr :: gfxSub t) hq
              with h1 | h1 | ⟨p₁, p₂, h3, h4, h5, h6, h7⟩
            · rw [hsd]
              exact h1.trans ( List.IsPrefix.isInfix (List.prefix_append A _))
            · rcases inf_split p insL (cbr :: gfxSub t) h1
                with h2 | h2 | ⟨p₁, p₂, h3, h4, h5, h6, h7⟩
              · exact absurd h2 hpins
              · rcases List.infix_cons_iff.mp h2 with h3 | h3
                · cases p with
                  | nil => exact List.nil_infix
                  | cons d p' =>
                    obtain ⟨hd, _⟩ := List.cons_prefix_cons.mp h3
                    subst hd
                    exact absurd (List.mem_cons_self _ _) hbr
                · have h4 := ih t htn h3
                  rw [hsd]
                  exact h4.trans
                    ( List.IsSuffix.isInfix
                      ((List.suffix_cons cbr t).trans (List.suffix_append A _)))
              · cases p₂ with
                | nil => exact absurd rfl h5
                | cons d p₂' =>
                  obtain ⟨hd, _⟩ := List.cons_prefix_cons.mp h7
                  subst hd
                  have : cbr ∈ p := by rw [h3]; simp
                  exact absurd this hbr
            · have hp₂q : p₂ <:+ p := h3 ▸ List.suffix_append p₁ p₂
              rcases pre_split p₂ insL (cbr :: gfxSub t) h7 with h8 | ⟨r₂, hr21, hr22⟩
              · exact absurd h8 (cond_drop p insL hnoins p₂ h5 hp₂q)
              · have hin : insL <:+: p :=
                  ( List.IsPrefix.isInfix (hr21 ▸ List.prefix_append insL r₂)).trans
                    ( List.IsSuffix.isInfix hp₂q)
                exact absurd hin hinsp
        | none =>
          rw [gfxSub_nomatch a s' hma] at hq
          rcases List.infix_cons_iff.mp hq with h1 | h1
          · have h2 := gfxSub_pullPre p hbr hnoins hinsp (a :: s') p List.suffix_rfl
              (by rw [gfxSub_nomatch a s' hma]; exact h1)
            exact List.IsPrefix.isInfix h2
          · have hlen : s'.length ≤ n := by simp at hl; omega
            exact (ih s' hlen h1).trans ( List.IsSuffix.isInfix (List.suffix_cons a _))
  intro s
  exact main s.length s le_rfl

theorem gfxSub_has_ins : ∀ s : List Char, gfxSub s ≠ s → insL <:+: gfxSub s := by
  have main : ∀ n s, s.length ≤ n → gfxSub s ≠ s → insL <:+: gfxSub s := by
    intro n
    induction n with
    | zero =>
      intro s hl hne
      have hs : s = [] := List.length_eq_zero.mp (Nat.le_zero.mp hl)
      subst hs
      exact absurd gfxSub_nil hne
    | succ n ih =>
      intro s hl hne
      cases s with
      | nil => exact absurd gfxSub_nil hne
      | cons a s' =>
        cases hma : matchGfx (a :: s') with
        | some pr =>
          cases pr with
          | mk A t =>
            rw [gfxSub_match a s' A t hma]
            exact ⟨A, cbr :: gfxSub t, by simp⟩
        | none =>
          rw [gfxSub_nomatch a s' hma] at hne ⊢
          have hne' : gfxSub s' ≠ s' := fun hx => hne (by rw [hx])
          have hlen : s'.length ≤ n := by simp at hl; omega
          exact (ih s' hlen hne').trans ( List.IsSuffix.isInfix (List.suffix_cons a _))
  intro s
  exact main s.length s le_rfl

theorem matchInfix_prepend (u : List Char) {s : List Char} (h : MatchInfix s) :
    MatchInfix (u ++ s) := by
  obtain ⟨u', w1, w2, v, hw1, hw2, hcv, heq⟩ := h
  exact ⟨u ++ u', w1, w2, v, hw1, hw2, hcv, by rw [heq]; simp⟩

theorem matchInfix_cons (a : Char) {s : List Char} (h : MatchInfix s) :
    MatchInfix (a :: s) := matchInfix_prepend [a] h

theorem matchInfix_of_anyMatch : ∀ s, anyMatch s = true → MatchInfix s := by
  intro s
  induction s with
  | nil => intro h; simp [anyMatch] at h
  | cons a s' ih =>
    intro h
    simp only [anyMatch, Bool.or_eq_true] at h
    rcases h with h1 | h1
    · cases hma : matchGfx (a :: s') with
      | none => rw [hma] at h1; simp at h1
      | some pr =>
        cases pr with
        | mk A t =>
          obtain ⟨w1, w2, B, hw1, hw2, hnb, hA, hsd⟩ := matchGfx_some _ _ _ hma
          refine ⟨[], w1, w2, B ++ cbr :: t, hw1, hw2, by simp, ?_⟩
          rw [hsd, hA]
          simp
    · exact matchInfix_cons a (ih h1)

theorem matchGfx_isSome_of_parts (w1 w2 v : List Char)
    (hw1 : ∀ c ∈ w1, isPyWs c = true) (hw2 : ∀ c ∈ w2, isPyWs c = true)
    (hcv : cbr ∈ v) :
    (matchGfx (gfxmapL ++ w1 ++ '=' :: (w2 ++ obr :: v))).isSome = true := by
  obtain ⟨B, r, hbk⟩ := breakAt_of_mem cbr v hcv
  have hdp : dropPre gfxmapL (gfxmapL ++ (w1 ++ '=' :: (w2 ++ obr :: v))) =
      some (w1 ++ '=' :: (w2 ++ obr :: v)) := (dropPre_iff _ _ _).mpr rfl
  have hsp1 : spanWs (w1 ++ '=' :: (w2 ++ obr :: v)) = (w1, '=' :: (w2 ++ obr :: v)) :=
    spanWs_exact w1 hw1 '=' (by decide) _
  have hsp2 : spanWs (w2 ++ obr :: v) = (w2, obr :: v) :=
    spanWs_exact w2 hw2 obr (by decide) _
  rw [show gfxmapL ++ w1 ++ '=' :: (w2 ++ obr :: v) =
    gfxmapL ++ (w1 ++ '=' :: (w2 ++ obr :: v)) from by simp]
  unfold matchGfx
  simp only [hdp, hsp1, hsp2, hbk]
  simp

theorem anyMatch_true_head (s : List Char) (hne : s ≠ [])
    (h : (matchGfx s).isSome = true) : anyMatch s = true := by
  cases s with
  | nil => exact absurd rfl hne
  | cons a s' => simp only [anyMatch, h, Bool.true_or]

theorem anyMatch_append (u v : List Char) (h : anyMatch v = true) :
    anyMatch (u ++ v) = true := by
  induction u with
  | nil => simpa using h
  | cons x u' ih => simp [anyMatch, ih]

theorem anyMatch_of_matchInfix : ∀ s, MatchInfix s → anyMatch s = true := by
  intro s h
  obtain ⟨u, w1, w2, v, hw1, hw2, hcv, heq⟩ := h
  subst heq
  rw [show u ++ gfxmapL ++ w1 ++ '=' :: (w2 ++ obr :: v) =
    u ++ (gfxmapL ++ w1 ++ '=' :: (w2 ++ obr :: v)) from by simp]
  apply anyMatch_append
  apply anyMatch_true_head
  · intro hx
    have hlen := congrArg List.length hx
    have h7 : gfxmapL.length = 7 := by decide
    simp only [List.length_append, List.length_cons, List.length_nil] at hlen
    omega
  · exact matchGfx_isSome_of_parts w1 w2 v hw1 hw2 hcv

theorem ws_not_r (c : Char) (h : isPyWs c = true) : c ≠ 'r' := by
  intro hc
  subst hc
  exact absurd h (by decide)

theorem matchInfix_pull : ∀ s, MatchInfix (replaceAll errL fbL s) → MatchInfix s := by
  have herr : errL ≠ [] := by decide
  have hGfb : 'G' ∉ fbL := by decide
  have hG : gfxmapL = 'G' :: ("FX_MAP".toList) := by decide
  have hfb : fbL = 'r' :: fbL.tail := by decide
  have hbrfb : cbr ∉ fbL := by decide
  have main : ∀ n s, s.length ≤ n → MatchInfix (replaceAll errL fbL s) → MatchInfix s := by
    intro n
    induction n with
    | zero =>
      intro s hl hmi
      have hs : s = [] := List.length_eq_zero.mp (Nat.le_zero.mp hl)
      subst hs
      rw [replaceAll_nil] at hmi
      obtain ⟨u, w1, w2, v, _, _, _, heq⟩ := hmi
      have hlen := congrArg List.length heq
      have h7 : gfxmapL.length = 7 := by decide
      simp only [List.length_append, List.length_cons, List.length_nil] at hlen
      omega
    | succ n ih =>
      intro s hl hmi
      cases s with
      | nil =>
        rw [replaceAll_nil] at hmi
        obtain ⟨u, w1, w2, v, _, _, _, heq⟩ := hmi
        have hlen := congrArg List.length heq
        have h7 : gfxmapL.length = 7 := by decide
        simp only [List.length_append, List.length_cons, List.length_nil] at hlen
        omega
      | cons a s' =>
        by_cases hpp : errL <+: (a :: s')
        · obtain ⟨s₂, hs₂⟩ := hpp
          rw [← hs₂, replaceAll_eat errL fbL herr] at hmi
          rw [← hs₂] at hl ⊢
          have hl₂ : s₂.length ≤ n := by
            simp at hl
            have he1 : 1 ≤ errL.length := by decide
            omega
          obtain ⟨u, w1, w2, v, hw1, hw2, hcv, heq⟩ := hmi
          rw [show u ++ gfxmapL ++ w1 ++ '=' :: (w2 ++ obr :: v) =
            u ++ (gfxmapL ++ w1 ++ '=' :: (w2 ++ obr :: v)) from by simp] at heq
          have hupre : fbL <+: u ++ (gfxmapL ++ w1 ++ '=' :: (w2 ++ obr :: v)) :=
            heq ▸ List.prefix_append fbL _
          rcases pre_split fbL u _ hupre with h1 | ⟨r, hr1, hr2⟩
          · obtain ⟨u₂, hu₂⟩ := h1
            rw [← hu₂, List.append_assoc] at heq
            have hR := List.append_cancel_left heq
            have hmR : MatchInfix (replaceAll errL fbL s₂) :=
              ⟨u₂, w1, w2, v, hw1, hw2, hcv, by rw [hR]; simp⟩
            exact matchInfix_prepend errL (ih s₂ hl₂ hmR)
          · cases r with
            | nil =>
              rw [List.append_nil] at hr1
              subst hr1
              have hR := List.append_cancel_left heq
              have hmR : MatchInfix (replaceAll errL fbL s₂) :=
                ⟨[], w1, w2, v, hw1, hw2, hcv, by rw [hR]; simp⟩
              exact matchInfix_prepend errL (ih s₂ hl₂ hmR)
            | cons d r' =>
              rw [show gfxmapL ++ w1 ++ '=' :: (w2 ++ obr :: v) =
                'G' :: (("FX_MAP".toList) ++ w1 ++ '=' :: (w2 ++ obr :: v)) from by
                  rw [hG]; simp] at hr2
              obtain ⟨hd, _⟩ := List.cons_prefix_cons.mp hr2
              subst hd
              have : 'G' ∈ fbL := by rw [hr1]; simp
              exact absurd this hGfb
        · rw [replaceAll_neg errL fbL a s' hpp] at hmi
          obtain ⟨u, w1, w2, v, hw1, hw2, hcv, heq⟩ := hmi
          cases u with
          | cons d u' =>
            rw [show (d :: u') ++ gfxmapL ++ w1 ++ '=' :: (w2 ++ obr :: v) =
              d :: (u' ++ gfxmapL ++ w1 ++ '=' :: (w2 ++ obr :: v)) from by simp] at heq
            have had : a = d := (List.cons.injEq _ _ _ _ ▸ heq).1
            have htl : replaceAll errL fbL s' = u' ++ gfxmapL ++ w1 ++ '=' :: (w2 ++ obr :: v) :=
              (List.cons.injEq _ _ _ _ ▸ heq).2
            have hlen : s'.length ≤ n := by simp at hl; omega
            have hmR : MatchInfix (replaceAll errL fbL s') :=
              ⟨u', w1, w2, v, hw1, hw2, hcv, htl⟩
            have := matchInfix_cons a (ih s' hlen hmR)
            exact this
          | nil =>
            have heq2 : replaceAll errL fbL (a :: s') =
                (gfxmapL ++ w1 ++ '=' :: (w2 ++ [obr])) ++ v := by
              rw [replaceAll_neg errL fbL a s' hpp, heq]
              simp
            have hrp : 'r' ∉ gfxmapL ++ w1 ++ '=' :: (w2 ++ [obr]) := by
              intro hx
              rcases List.mem_append.mp hx with hx1 | hx1
              · rcases List.mem_append.mp hx1 with hx2 | hx2
                · exact absurd hx2 (by decide)
                · exact ws_not_r 'r' (hw1 'r' hx2) rfl
              · rcases List.mem_cons.mp hx1 with hx2 | hx2
                · exact absurd hx2 (by decide)
                · rcases List.mem_append.mp hx2 with hx3 | hx3
                  · exact ws_not_r 'r' (hw2 'r' hx3) rfl
                  · rcases List.mem_singleton.mp hx3 with hx4
                    exact absurd hx4 (by decide)
            obtain ⟨rSrc, h1, h2⟩ := replaceAll_peel errL fbL herr 'r' fbL.tail hfb
              (a :: s') (gfxmapL ++ w1 ++ '=' :: (w2 ++ [obr])) v hrp heq2
            have hcr : cbr ∈ rSrc := by
              rw [h2] at hcv
              exact replaceAll_memPull errL fbL herr cbr hbrfb rSrc hcv
            exact ⟨[], w1, w2, rSrc, hw1, hw2, hcr, by rw [h1]; simp⟩
  intro s
  exact main s.length s le_rfl

theorem gfxSub_id_replaceErr (s : List Char) (h : gfxSub s = s) :
    gfxSub (replaceAll errL fbL s) = replaceAll errL fbL s := by
  rw [gfxSub_id_iff] at h ⊢
  cases hm : anyMatch (replaceAll errL fbL s) with
  | false => rfl
  | true =>
    have h1 := matchInfix_of_anyMatch _ hm
    have h2 := matchInfix_pull s h1
    have h3 := anyMatch_of_matchInfix s h2
    rw [h] at h3
    cases h3

theorem edit1_skip (c : List Char) (h : q1L <:+: c ∨ q2L <:+: c) : edit1 c = c := by
  unfold edit1; rw [if_pos h]

theorem edit1_sub (c : List Char) (h : ¬ (q1L <:+: c ∨ q2L <:+: c)) :
    edit1 c = gfxSub c := by
  unfold edit1; rw [if_neg h]

theorem edit2_hdr (c : List Char) (h : hdrL <:+: c) : edit2 c = c := by
  unfold edit2; rw [if_pos h]

theorem edit2_anchor (c : List Char) (h1 : ¬ hdrL <:+: c) (h2 : anchorL <:+: c) :
    edit2 c = replaceAll anchorL injL c := by
  unfold edit2; rw [if_neg h1, if_pos h2]

theorem edit2_err (c : List Char) (h1 : ¬ hdrL <:+: c) (h2 : ¬ anchorL <:+: c)
    (h3 : errL <:+: c) : edit2 c = replaceAll errL fbL c := by
  unfold edit2; rw [if_neg h1, if_neg h2, if_pos h3]

theorem edit2_none (c : List Char) (h1 : ¬ hdrL <:+: c) (h2 : ¬ anchorL <:+: c)
    (h3 : ¬ errL <:+: c) : edit2 c = c := by
  unfold edit2; rw [if_neg h1, if_neg h2, if_neg h3]

theorem q1_in_inj : q1L <:+: injL := by decide

theorem hdr_in_inj : hdrL <:+: injL := by decide

theorem q1_in_ins : q1L <:+: insL := by decide

theorem hdr_has_q1 : q1L <:+: hdrL := by decide

theorem q1_survive_err (c : List Char) (h : q1L <:+: c) :
    q1L <:+: replaceAll errL fbL c :=
  replaceAll_keepInf errL fbL q1L (by decide) (by decide) (by decide)
    (by decide) (by decide) c h

theorem q2_survive_err (c : List Char) (h : q2L <:+: c) :
    q2L <:+: replaceAll errL fbL c :=
  replaceAll_keepInf errL fbL q2L (by decide) (by decide) (by decide)
    (by decide) (by decide) c h

theorem hdr_pull_err (c : List Char) (h : hdrL <:+: replaceAll errL fbL c) :
    hdrL <:+: c :=
  replaceAll_pullInf errL fbL hdrL (by decide) (by decide) (by decide)
    (by decide) (by decide) c h

theorem anchor_pull_err (c : List Char) (h : anchorL <:+: replaceAll errL fbL c) :
    anchorL <:+: c :=
  replaceAll_pullInf errL fbL anchorL (by decide) (by decide) (by decide)
    (by decide) (by decide) c h

theorem err_gone (c : List Char) : ¬ errL <:+: replaceAll errL fbL c :=
  replaceAll_elim errL fbL (by decide) (by decide) (by decide)
    (by decide) (by decide) c

/-- Running the content transformation twice gives the same content as
running it once. -/
theorem patchContent_idem (c : List Char) :
    patchContent (patchContent c) = patchContent c := by
  have fix : ∀ d, edit1 d = d → edit2 d = d → patchContent d = d := by
    intro d h1 h2
    unfold patchContent
    rw [h1, h2]
  by_cases hq : q1L <:+: c ∨ q2L <:+: c
  · have he1 : edit1 c = c := edit1_skip c hq
    by_cases hh : hdrL <:+: c
    · have hpc : patchContent c = c := by
        unfold patchContent; rw [he1, edit2_hdr c hh]
      rw [hpc]
      exact hpc
    · by_cases ha : anchorL <:+: c
      · have hc' : patchContent c = replaceAll anchorL injL c := by
          unfold patchContent; rw [he1, edit2_anchor c hh ha]
        have hinj : injL <:+: patchContent c := by
          rw [hc']
          exact replaceAll_has_repl anchorL injL (by decide) c ha
        exact fix _ (edit1_skip _ (Or.inl (q1_in_inj.trans hinj)))
          (edit2_hdr _ (hdr_in_inj.trans hinj))
      · by_cases he : errL <:+: c
        · have hc' : patchContent c = replaceAll errL fbL c := by
            unfold patchContent; rw [he1, edit2_err c hh ha he]
          have hq' : q1L <:+: patchContent c ∨ q2L <:+: patchContent c := by
            rcases hq with h | h
            · left; rw [hc']; exact q1_survive_err c h
            · right; rw [hc']; exact q2_survive_err c h
          have hh' : ¬ hdrL <:+: patchContent c :=
            fun hx => hh (hdr_pull_err c (hc' ▸ hx))
          have ha' : ¬ anchorL <:+: patchContent c :=
            fun hx => ha (anchor_pull_err c (hc' ▸ hx))
          have he' : ¬ errL <:+: patchContent c := by
            rw [hc']; exact err_gone c
          exact fix _ (edit1_skip _ hq') (edit2_none _ hh' ha' he')
        · have hpc : patchContent c = c := by
            unfold patchContent; rw [he1, edit2_none c hh ha he]
          rw [hpc]
          exact hpc
  · have he1 : edit1 c = gfxSub c := edit1_sub c hq
    have hh : ¬ hdrL <:+: c := fun hx => hq (Or.inl (hdr_has_q1.trans hx))
    by_cases hgs : gfxSub c = c
    · have he1' : edit1 c = c := by rw [he1, hgs]
      by_cases ha : anchorL <:+: c
      · have hc' : patchContent c = replaceAll anchorL injL c := by
          unfold patchContent; rw [he1', edit2_anchor c hh ha]
        have hinj : injL <:+: patchContent c := by
          rw [hc']
          exact replaceAll_has_repl anchorL injL (by decide) c ha
        exact fix _ (edit1_skip _ (Or.inl (q1_in_inj.trans hinj)))
          (edit2_hdr _ (hdr_in_inj.trans hinj))
      · by_cases he : errL <:+: c
        · have hc' : patchContent c = replaceAll errL fbL c := by
            unfold patchContent; rw [he1', edit2_err c hh ha he]
          have hh' : ¬ hdrL <:+: patchContent c :=
            fun hx => hh (hdr_pull_err c (hc' ▸ hx))
          have ha' : ¬ anchorL <:+: patchContent c :=
            fun hx => ha (anchor_pull_err c (hc' ▸ hx))
          have he' : ¬ errL <:+: patchContent c := by
            rw [hc']; exact err_gone c
          have he1'' : edit1 (patchContent c) = patchContent c := by
            by_cases hq' : q1L <:+: patchContent c ∨ q2L <:+: patchContent c
            · exact edit1_skip _ hq'
            · rw [edit1_sub _ hq', hc']
              exact gfxSub_id_replaceErr c hgs
          exact fix _ he1'' (edit2_none _ hh' ha' he')
        · have hpc : patchContent c = c := by
            unfold patchContent; rw [he1', edit2_none c hh ha he]
          rw [hpc]
          exact hpc
    · have hq1e : q1L <:+: edit1 c := by
        rw [he1]
        exact q1_in_ins.trans (gfxSub_has_ins c hgs)
      by_cases hh2 : hdrL <:+: edit1 c
      · have hc' : patchContent c = edit1 c := by
          unfold patchContent; rw [edit2_hdr _ hh2]
        refine fix _ ?_ ?_
        · rw [hc']; exact edit1_skip _ (Or.inl hq1e)
        · rw [hc']; exact edit2_hdr _ hh2
      · by_cases ha : anchorL <:+: edit1 c
        · have hc' : patchContent c = replaceAll anchorL injL (edit1 c) := by
            unfold patchContent; rw [edit2_anchor _ hh2 ha]
          have hinj : injL <:+: patchContent c := by
            rw [hc']
            exact replaceAll_has_repl anchorL injL (by decide) _ ha
          exact fix _ (edit1_skip _ (Or.inl (q1_in_inj.trans hinj)))
            (edit2_hdr _ (hdr_in_inj.trans hinj))
        · by_cases he : errL <:+: edit1 c
          · have hc' : patchContent c = replaceAll errL fbL (edit1 c) := by
              unfold patchContent; rw [edit2_err _ hh2 ha he]
            have hq1' : q1L <:+: patchContent c := by
              rw [hc']; exact q1_survive_err _ hq1e
            have hh' : ¬ hdrL <:+: patchContent c :=
              fun hx => hh2 (hdr_pull_err _ (hc' ▸ hx))
            have ha' : ¬ anchorL <:+: patchContent c :=
              fun hx => ha (anchor_pull_err _ (hc' ▸ hx))
            have he' : ¬ errL <:+: patchContent c := by
              rw [hc']; exact err_gone _
            exact fix _ (edit1_skip _ (Or.inl hq1')) (edit2_none _ hh' ha' he')
          · have hc' : patchContent c = edit1 c := by
              unfold patchContent; rw [edit2_none _ hh2 ha he]
            refine fix _ ?_ ?_
            · rw [hc']; exact edit1_skip _ (Or.inl hq1e)
            · rw [hc']; exact edit2_none _ hh2 ha he

theorem ws_not_cbr (c : Char) (h : isPyWs c = true) : c ≠ cbr := by
  intro hc
  subst hc
  exact absurd h (by decide)

theorem gfxSub_block : ∀ s, blockL <:+: s → resBlockL <:+: gfxSub s := by
  have hsplit : blockL = blockPfxL ++ [cbr] := by decide
  have hbrP : cbr ∉ blockPfxL := by decide
  have hres : resBlockL = blockPfxL ++ (insL ++ [cbr]) := by decide
  have hBmatch : ∀ rest, (matchGfx (blockL ++ rest)).isSome = true := by
    intro rest
    have hb2 : blockL ++ rest =
        gfxmapL ++ [' '] ++ '=' :: ([' '] ++ obr :: (bodyL ++ cbr :: rest)) := by
      have hb : blockL = gfxmapL ++ [' '] ++ '=' :: ([' '] ++ obr :: (bodyL ++ [cbr])) := by
        decide
      rw [hb]
      simp
    rw [hb2]
    exact matchGfx_isSome_of_parts [' '] [' '] (bodyL ++ cbr :: rest)
      (by decide) (by decide) (by simp)
  have main : ∀ n s, s.length ≤ n → blockL <:+: s → resBlockL <:+: gfxSub s := by
    intro n
    induction n with
    | zero =>
      intro s hl hblk
      have hs : s = [] := List.length_eq_zero.mp (Nat.le_zero.mp hl)
      subst hs
      exact absurd (List.infix_nil.mp hblk) (by decide)
    | succ n ih =>
      intro s hl hblk
      cases s with
      | nil => exact absurd (List.infix_nil.mp hblk) (by decide)
      | cons a s' =>
        cases hma : matchGfx (a :: s') with
        | none =>
          rw [gfxSub_nomatch a s' hma]
          rcases List.infix_cons_iff.mp hblk with h1 | h1
          · obtain ⟨rest, hrest⟩ := h1
            have hsm := hBmatch rest
            rw [hrest, hma] at hsm
            simp at hsm
          · have hlen : s'.length ≤ n := by simp at hl; omega
            exact (ih s' hlen h1).trans ( List.IsSuffix.isInfix (List.suffix_cons a _))
        | some pr =>
          cases pr with
          | mk A t =>
            obtain ⟨w1, w2, B, hw1, hw2, hnb, hA, hsd⟩ := matchGfx_some _ _ _ hma
            rw [gfxSub_match a s' A t hma]
            have hbrA : cbr ∉ A := by
              rw [hA]
              intro hx
              rcases List.mem_append.mp hx with hx1 | hx1
              · rcases List.mem_append.mp hx1 with hx2 | hx2
                · exact absurd hx2 (by decide)
                · exact ws_not_cbr cbr (hw1 cbr hx2) rfl
              · rcases List.mem_cons.mp hx1 with hx2 | hx2
                · exact absurd hx2 (by decide)
                · rcases List.mem_append.mp hx2 with hx3 | hx3
                  · exact ws_not_cbr cbr (hw2 cbr hx3) rfl
                  · rcases List.mem_cons.mp hx3 with hx4 | hx4
                    · exact absurd hx4 (by decide)
                    · exact absurd hx4 hnb
            rw [hsd] at hblk hl
            have htn : t.length ≤ n := by
              simp only [List.length_append, List.length_cons] at hl
              omega
            rcases inf_split blockL A (cbr :: t) hblk
              with h1 | h1 | ⟨p₁, p₂, h3, h4, h5, h6, h7⟩
            · have : cbr ∈ A := h1.mem (by decide : cbr ∈ blockL)
              exact absurd this hbrA
            · rcases List.infix_cons_iff.mp h1 with h2 | h2
              · rw [show blockL = 'G' :: blockL.tail from by decide] at h2
                obtain ⟨hd, _⟩ := List.cons_prefix_cons.mp h2
                exact absurd hd (by decide)
              · have h4 := ih t htn h2
                refine h4.trans ( List.IsSuffix.isInfix ?_)
                have hshape : A ++ insL ++ cbr :: gfxSub t =
                    (A ++ insL ++ [cbr]) ++ gfxSub t := by simp
                rw [hshape]
                exact List.suffix_append _ _
            · cases p₂ with
              | nil => exact absurd rfl h5
              | cons d p₂' =>
                obtain ⟨hd, ht₂⟩ := List.cons_prefix_cons.mp h7
                subst hd
                have h3' : blockPfxL ++ [cbr] = p₁ ++ cbr :: p₂' := by
                  rw [← hsplit]; exact h3
                rcases List.eq_nil_or_concat p₂' with hp | ⟨q₂, d₂, hq₂⟩
                · subst hp
                  have hlen : blockPfxL.length = p₁.length := by
                    have := congrArg List.length h3'
                    simp at this
                    omega
                  obtain ⟨hP, _⟩ := List.append_inj h3' hlen
                  obtain ⟨A₀, hA₀⟩ := h6
                  refine ⟨A₀, gfxSub t, ?_⟩
                  rw [hres, ← hA₀, ← hP]
                  simp
                · subst hq₂
                  have h3'' : blockPfxL ++ [cbr] = (p₁ ++ cbr :: q₂) ++ [d₂] := by
                    rw [h3']; simp
                  obtain ⟨hP, _⟩ := List.append_inj' h3'' rfl
                  have : cbr ∈ blockPfxL := by rw [hP]; simp
                  exact absurd this hbrP
  intro s
  exact main s.length s le_rfl

theorem patch_block (c : List Char) (hb : blockL <:+: c)
    (h1 : ¬ q1L <:+: c) (h2 : ¬ q2L <:+: c) :
    resBlockL <:+: patchContent c := by
  have he1 : edit1 c = gfxSub c := edit1_sub c (by tauto)
  have hres : resBlockL <:+: edit1 c := by
    rw [he1]
    exact gfxSub_block c hb
  unfold patchContent
  by_cases hh : hdrL <:+: edit1 c
  · rw [edit2_hdr _ hh]; exact hres
  · by_cases ha : anchorL <:+: edit1 c
    · rw [edit2_anchor _ hh ha]
      exact replaceAll_keepInf anchorL injL resBlockL (by decide) (by decide)
        (by decide) (by decide) (by decide) _ hres
    · by_cases he : errL <:+: edit1 c
      · rw [edit2_err _ hh ha he]
        exact replaceAll_keepInf errL fbL resBlockL (by decide) (by decide)
          (by decide) (by decide) (by decide) _ hres
      · rw [edit2_none _ hh ha he]; exact hres

theorem patch_anchor (c : List Char) (ha : anchorL <:+: c) (hh : ¬ hdrL <:+: c) :
    injL <:+: patchContent c := by
  unfold patchContent
  by_cases hq : q1L <:+: c ∨ q2L <:+: c
  · rw [edit1_skip c hq, edit2_anchor c hh ha]
    exact replaceAll_has_repl anchorL injL (by decide) c ha
  · rw [edit1_sub c hq]
    have ha' : anchorL <:+: gfxSub c := gfxSub_keepInf anchorL (by decide) c ha
    have hh' : ¬ hdrL <:+: gfxSub c := fun hx =>
      hh (gfxSub_pullInf hdrL (by decide) (by decide) (by decide) (by decide) c hx)
    rw [edit2_anchor _ hh' ha']
    exact replaceAll_has_repl anchorL injL (by decide) _ ha'

theorem patch_fallback (c : List Char) (he : errL <:+: c)
    (ha : ¬ anchorL <:+: c) (hh : ¬ hdrL <:+: c) :
    fbL <:+: patchContent c ∧ ¬ errL <:+: patchContent c := by
  unfold patchContent
  by_cases hq : q1L <:+: c ∨ q2L <:+: c
  · rw [edit1_skip c hq, edit2_err c hh ha he]
    exact ⟨replaceAll_has_repl errL fbL (by decide) c he, err_gone c⟩
  · rw [edit1_sub c hq]
    have he' : errL <:+: gfxSub c := gfxSub_keepInf errL (by decide) c he
    have ha' : ¬ anchorL <:+: gfxSub c := fun hx =>
      ha (gfxSub_pullInf anchorL (by decide) (by decide) (by decide) (by decide) c hx)
    have hh' : ¬ hdrL <:+: gfxSub c := fun hx =>
      hh (gfxSub_pullInf hdrL (by decide) (by decide) (by decide) (by decide) c hx)
    rw [edit2_err _ hh' ha' he']
    exact ⟨replaceAll_has_repl errL fbL (by decide) _ he', err_gone _⟩

theorem patch_not_modified (d : List Char) (h : ¬ modifiedProp d) :
    patchContent d = d := by
  unfold modifiedProp at h
  have he1 : edit1 d = d := by
    by_cases hg : q1L <:+: d ∨ q2L <:+: d
    · exact edit1_skip d hg
    · by_cases hgs : gfxSub d = d
      · rw [edit1_sub d hg, hgs]
      · exact absurd (Or.inl ⟨hg, hgs⟩) h
  unfold patchContent
  rw [he1]
  by_cases hh : hdrL <:+: d
  · exact edit2_hdr d hh
  · by_cases ha : anchorL <:+: d
    · refine absurd (Or.inr ⟨?_, Or.inl ?_⟩) h
      · rw [he1]; exact hh
      · rw [he1]; exact ha
    · by_cases he : errL <:+: d
      · refine absurd (Or.inr ⟨?_, Or.inr ?_⟩) h
        · rw [he1]; exact hh
        · rw [he1]; exact he
      · exact edit2_none d hh ha he

theorem patch_final (c : List Char) :
    (patch_aiter_for_gfx1201 (some c) true true).finalFile = some (patchContent c) := by
  unfold patch_aiter_for_gfx1201
  by_cases hm : modifiedProp c
  · simp [hm]
  · simp [hm, patch_not_modified c hm]

set_option maxRecDepth 16384

/-- Claim C1, counterexample to the claim as stated.  The specification
spells the anchor block with four spaces of indentation before `return`
(`elif gfx == "gfx950":\n    return "MI350"`), but the code's `target_str`
(line 61) carries eight spaces.  On a content that consists of exactly the
four-space block — which contains that literal block and no
`elif gfx == "gfx1201":` header — the patcher changes nothing and the
result contains no `gfx1201` branch at all. -/
theorem c1_counterexample :
    anchor4L <:+: anchor4L ∧ ¬ hdrL <:+: anchor4L ∧
      patchContent anchor4L = anchor4L ∧
      ¬ gfx1201L <:+: patchContent anchor4L := by
  decide

/-- Claim C1, amended: for every content containing the code's anchor
block (eight spaces of indentation before `return`, the literal of
line 61) and not containing the branch header, the patched content
contains `injL`, which is exactly the unmodified anchor block immediately
followed by the new `gfx1201` branch returning the fallback value. -/
theorem c1_anchor_insertion (c : List Char) (ha : anchorL <:+: c)
    (hh : ¬ hdrL <:+: c) :
    injL <:+: patchContent c ∧ anchorL <+: injL ∧ hdrL <:+: injL :=
  ⟨patch_anchor c ha hh, by decide, by decide⟩

theorem c1_anchor_insertion_witness :
    (anchorL <:+: anchorL ∧ ¬ hdrL <:+: anchorL) ∧
      injL <:+: patchContent anchorL ∧ anchorL <+: injL ∧ hdrL <:+: injL :=
  ⟨⟨List.infix_rfl, by decide⟩, c1_anchor_insertion anchorL List.infix_rfl (by decide)⟩

/-- Claim C2: the patch operation is idempotent.  Applying the content
transformation twice yields the same content as applying it once, and at
the file level a second (failure-free) run leaves the file state produced
by the first run unchanged. -/
theorem c2_idempotent (c : List Char) :
    patchContent (patchContent c) = patchContent c ∧
      (patch_aiter_for_gfx1201 (some (patchContent c)) true true).finalFile =
        (patch_aiter_for_gfx1201 (some c) true true).finalFile := by
  refine ⟨patchContent_idem c, ?_⟩
  rw [patch_final, patch_final, patchContent_idem c]

theorem c2_idempotent_witness :
    patchContent (patchContent errL) = patchContent errL ∧
      (patch_aiter_for_gfx1201 (some (patchContent errL)) true true).finalFile =
        (patch_aiter_for_gfx1201 (some errL) true true).finalFile :=
  c2_idempotent errL

/-- Claim C3: on a content containing the dictionary literal
`GFX_MAP = {\n    1: "gfx900",\n}` and no quoted `gfx1201`, patching
produces a content containing the dictionary with the entry
`16: "gfx1201",` inserted before the closing brace and the original entry
`1: "gfx900",` preserved unchanged (all of which is spelled out by
`resBlockL`). -/
theorem c3_map_insertion (c : List Char) (hb : blockL <:+: c)
    (h1 : ¬ q1L <:+: c) (h2 : ¬ q2L <:+: c) :
    resBlockL <:+: patchContent c ∧ mapEntryL <:+: resBlockL ∧
      ("1: \"gfx900\",".toList) <:+: resBlockL :=
  ⟨patch_block c hb h1 h2, by decide, by decide⟩

theorem c3_map_insertion_witness :
    (blockL <:+: blockL ∧ ¬ q1L <:+: blockL ∧ ¬ q2L <:+: blockL) ∧
      resBlockL <:+: patchContent blockL ∧ mapEntryL <:+: resBlockL ∧
      ("1: \"gfx900\",".toList) <:+: resBlockL :=
  ⟨⟨List.infix_rfl, by decide, by decide⟩,
    c3_map_insertion blockL List.infix_rfl (by decide) (by decide)⟩

/-- Claim C4: on a content containing the error-raising statement
`raise RuntimeError("Unsupported gfx")`, without the anchor block and
without the branch header, patching replaces the raise statement by the
unconditional fallback return, and no occurrence of the error-raising
statement remains. -/
theorem c4_fallback (c : List Char) (he : errL <:+: c)
    (ha : ¬ anchorL <:+: c) (hh : ¬ hdrL <:+: c) :
    fbL <:+: patchContent c ∧ ¬ errL <:+: patchContent c :=
  patch_fallback c he ha hh

theorem c4_fallback_witness :
    (errL <:+: errL ∧ ¬ anchorL <:+: errL ∧ ¬ hdrL <:+: errL) ∧
      fbL <:+: patchContent errL ∧ ¬ errL <:+: patchContent errL :=
  ⟨⟨List.infix_rfl, by decide, by decide⟩,
    c4_fallback errL List.infix_rfl (by decide) (by decide)⟩

/-- Claim C5: the operation returns `true` exactly when the file exists,
the read succeeds and, in case an edit modified the buffer, the write
succeeds; every raise is converted into the `false` return, and the
process exits with code 0 exactly on a `true` return and 1 exactly on a
`false` return. -/
theorem c5_result_contract (file : Option (List Char)) (ro wo : Bool) :
    ((patch_aiter_for_gfx1201 file ro wo).ret = true ↔
      (∃ c, file = some c ∧ ro = true ∧ (modifiedProp c → wo = true))) ∧
    (mainExit file ro wo = 0 ↔ (patch_aiter_for_gfx1201 file ro wo).ret = true) ∧
    (mainExit file ro wo = 1 ↔ (patch_aiter_for_gfx1201 file ro wo).ret = false) := by
  cases file with
  | none => refine ⟨?_, ?_, ?_⟩ <;> simp [patch_aiter_for_gfx1201, mainExit]
  | some c =>
    cases ro with
    | false => refine ⟨?_, ?_, ?_⟩ <;> simp [patch_aiter_for_gfx1201, mainExit]
    | true =>
      by_cases hm : modifiedProp c <;> cases wo <;>
        refine ⟨?_, ?_, ?_⟩ <;>
        simp [patch_aiter_for_gfx1201, mainExit, hm]

theorem c5_result_contract_witness :
    ((patch_aiter_for_gfx1201 (some c8W) true true).ret = true ↔
      (∃ c, (some c8W : Option (List Char)) = some c ∧ true = true ∧
        (modifiedProp c → true = true))) ∧
    (mainExit (some c8W) true true = 0 ↔
      (patch_aiter_for_gfx1201 (some c8W) true true).ret = true) ∧
    (mainExit (some c8W) true true = 1 ↔
      (patch_aiter_for_gfx1201 (some c8W) true true).ret = false) :=
  c5_result_contract (some c8W) true true

/-- Claim C6: on a content that already contains the map entry
`16: "gfx1201",` and the branch header, the operation returns `true`,
attempts no write, and the file content is unchanged. -/
theorem c6_noop_when_patched (c : List Char) (hm : mapEntryL <:+: c)
    (hh : hdrL <:+: c) :
    (patch_aiter_for_gfx1201 (some c) true true).ret = true ∧
    (patch_aiter_for_gfx1201 (some c) true true).wrote = false ∧
    (patch_aiter_for_gfx1201 (some c) true true).finalFile = some c ∧
    patchContent c = c := by
  have hq1 : q1L <:+: c := (show q1L <:+: mapEntryL by decide).trans hm
  have hnm : ¬ modifiedProp c := by
    intro hmod
    rcases hmod with ⟨h1, _⟩ | ⟨h1, _⟩
    · exact h1 (Or.inl hq1)
    · exact h1 (by rw [edit1_skip c (Or.inl hq1)]; exact hh)
  have hpc : patchContent c = c := by
    unfold patchContent
    rw [edit1_skip c (Or.inl hq1), edit2_hdr c hh]
  refine ⟨?_, ?_, ?_, hpc⟩ <;> simp [patch_aiter_for_gfx1201, hnm]

theorem c6_noop_when_patched_witness :
    (mapEntryL <:+: c6W ∧ hdrL <:+: c6W) ∧
      (patch_aiter_for_gfx1201 (some c6W) true true).ret = true ∧
      (patch_aiter_for_gfx1201 (some c6W) true true).wrote = false ∧
      (patch_aiter_for_gfx1201 (some c6W) true true).finalFile = some c6W ∧
      patchContent c6W = c6W :=
  ⟨⟨by decide, by decide⟩, c6_noop_when_patched c6W (by decide) (by decide)⟩

/-- Claim C7: when the target path does not exist, the operation returns
`false` without raising, performs no write, and no file is created. -/
theorem c7_missing_file (ro wo : Bool) :
    (patch_aiter_for_gfx1201 none ro wo).ret = false ∧
    (patch_aiter_for_gfx1201 none ro wo).wrote = false ∧
    (patch_aiter_for_gfx1201 none ro wo).finalFile = none :=
  ⟨rfl, rfl, rfl⟩

theorem c7_missing_file_witness :
    (patch_aiter_for_gfx1201 none true true).ret = false ∧
    (patch_aiter_for_gfx1201 none true true).wrote = false ∧
    (patch_aiter_for_gfx1201 none true true).finalFile = none :=
  c7_missing_file true true

/-- Claim C8: when the quoted marker is absent and the `GFX_MAP`
structural pattern does not match anywhere, edit 1 leaves the buffer
unchanged, edit 2 is still attempted on that buffer, and the pattern
mismatch alone does not make the operation return `false`. -/
theorem c8_pattern_mismatch (c : List Char) (h1 : ¬ q1L <:+: c)
    (h2 : ¬ q2L <:+: c) (hnm : anyMatch c = false) :
    edit1 c = c ∧ patchContent c = edit2 c ∧
      (patch_aiter_for_gfx1201 (some c) true true).ret = true := by
  have hgs : gfxSub c = c := gfxSub_id_of_noMatch c hnm
  have he1 : edit1 c = c := by
    rw [edit1_sub c (by tauto), hgs]
  refine ⟨he1, by unfold patchContent; rw [he1], ?_⟩
  by_cases hm : modifiedProp c <;> simp [patch_aiter_for_gfx1201, hm]

theorem c8_pattern_mismatch_witness :
    (¬ q1L <:+: c8W ∧ ¬ q2L <:+: c8W ∧ anyMatch c8W = false) ∧
      edit1 c8W = c8W ∧ patchContent c8W = edit2 c8W ∧
      (patch_aiter_for_gfx1201 (some c8W) true true).ret = true :=
  ⟨⟨by decide, by decide, by decide⟩,
    c8_pattern_mismatch c8W (by decide) (by decide) (by decide)⟩

/-- Claim C9: when the blunt fallback of edit 2 fires (header absent,
anchor absent, error string present), the buffer is transformed by the
replace-all operation, so no occurrence of the error-raising statement —
not only the first — remains. -/
theorem c9_fallback_replaces_all (b : List Char) (hh : ¬ hdrL <:+: b)
    (ha : ¬ anchorL <:+: b) (he : errL <:+: b) :
    edit2 b = replaceAll errL fbL b ∧ ¬ errL <:+: edit2 b := by
  have h2 := edit2_err b hh ha he
  exact ⟨h2, by rw [h2]; exact err_gone b⟩

theorem c9_fallback_replaces_all_witness :
    (¬ hdrL <:+: c9W ∧ ¬ anchorL <:+: c9W ∧ errL <:+: c9W) ∧
      edit2 c9W = replaceAll errL fbL c9W ∧ ¬ errL <:+: edit2 c9W :=
  ⟨⟨by decide, by decide, by decide⟩,
    c9_fallback_replaces_all c9W (by decide) (by decide) (by decide)⟩

/-- Claim C10: the guard of the map-entry edit is a whole-file scan for a
quoted `gfx1201`: any content containing one (in either quote style)
skips edit 1 entirely.  In particular, on `c10W`, whose only quoted
`gfx1201` sits inside an existing branch header while its `GFX_MAP` has
no entry for key 16, the operation returns `true`, changes nothing, and
the result still has no `16:` entry. -/
theorem c10_whole_file_guard :
    (∀ c, q1L <:+: c ∨ q2L <:+: c → edit1 c = c) ∧
      (patch_aiter_for_gfx1201 (some c10W) true true).ret = true ∧
      patchContent c10W = c10W ∧
      ¬ ("16:".toList) <:+: patchContent c10W := by
  refine ⟨fun c h => edit1_skip c h, ?_, ?_, ?_⟩ <;> decide

theorem c10_whole_file_guard_witness :
    (q1L <:+: c10W ∨ q2L <:+: c10W) ∧ edit1 c10W = c10W :=
  ⟨Or.inl (by decide), c10_whole_file_guard.1 c10W (Or.inl (by decide))⟩
